import Mathlib

set_option maxRecDepth 8000

/-!
Shallow embedding of the VSIX downloader toolkit (marketplace metadata
extraction, download URL resolution, retry orchestration, background
download validation and filename sanitization), together with theorems
checking the specification claims against these definitions.

Strings are modelled as Lean strings; character-level operations work on
the underlying character lists.  The few platform primitives the code
uses (the WHATWG URL constructor, encodeURIComponent) are modelled from
their standard semantics; everything else is translated directly from
the JavaScript source files.
-/

/-! Basic character and string utilities shared by several components. -/

/-- The JavaScript whitespace class, restricted to the characters that can
realistically occur here: space, tab, line feed, carriage return, vertical
tab, form feed and no-break space. -/
def isJsWs (c : Char) : Bool :=
  c == ' ' || c == '\t' || c == '\n' || c == '\r' || c.toNat == 11 || c.toNat == 12 || c.toNat == 160

/-- Model of JavaScript String.prototype.trim on character lists: drop
leading and trailing whitespace. -/
def jsTrim (l : List Char) : List Char :=
  ((l.dropWhile isJsWs).reverse.dropWhile isJsWs).reverse

/-- Model of JavaScript String.prototype.split with separator "." on a
character list: groups of characters between the dots, in order, with
empty groups kept. -/
def splitDot : List Char → List (List Char)
  | [] => [[]]
  | c :: rest =>
    if c == '.' then [] :: splitDot rest
    else
      match splitDot rest with
      | [] => [[c]]
      | g :: gs => (c :: g) :: gs

/-- Model of Array.prototype.join with separator "." on the groups produced
by splitDot. -/
def joinDot : List (List Char) → List Char
  | [] => []
  | [g] => g
  | g :: gs => g ++ '.' :: joinDot gs

/-- Characters stripped by VSIXDownloader.sanitizeText in content.js:
the set matched by its regular expression class (less-than, greater-than,
double quote, ampersand, and the apostrophe, tested by code point 39). -/
def isSanStripped (c : Char) : Bool :=
  c == '<' || c == '>' || c == '"' || c == '&' || c.toNat == 39

/-- VSIXDownloader.sanitizeText from content.js on character lists:
remove every stripped character, then trim surrounding whitespace. -/
def sanitizeTextChars (l : List Char) : List Char :=
  jsTrim (l.filter (fun c => !(isSanStripped c)))

/-- VSIXDownloader.sanitizeText from content.js lifted to strings. -/
def sanitizeText (s : String) : String :=
  ⟨sanitizeTextChars s.data⟩

/-- UTF-8 byte sequence of a Unicode code point, used by the
encodeURIComponent model. -/
def utf8Bytes (n : Nat) : List Nat :=
  if n < 128 then [n]
  else if n < 2048 then [192 + n / 64, 128 + n % 64]
  else if n < 65536 then [224 + n / 4096, 128 + (n / 64) % 64, 128 + n % 64]
  else [240 + n / 262144, 128 + (n / 4096) % 64, 128 + (n / 64) % 64, 128 + n % 64]

/-- Uppercase hexadecimal digit for a value below 16. -/
def hexDigit (n : Nat) : Char :=
  if n < 10 then Char.ofNat (48 + n) else Char.ofNat (55 + n)

/-- Percent-escape of one byte, as produced by encodeURIComponent. -/
def byteHex (b : Nat) : List Char :=
  ['%', hexDigit (b / 16), hexDigit (b % 16)]

/-- The characters encodeURIComponent leaves unescaped: letters, digits,
and the marks hyphen, underscore, dot, exclamation, tilde, asterisk,
apostrophe (code point 39) and parentheses. -/
def isUriUnreserved (c : Char) : Bool :=
  c.isAlpha || c.isDigit || c == '-' || c == '_' || c == '.' || c == '!' ||
    c == '~' || c == '*' || c == '(' || c == ')' || c.toNat == 39

/-- Model of the JavaScript global encodeURIComponent: unreserved
characters pass through, every other character is replaced by the
uppercase percent-escapes of its UTF-8 bytes. -/
def encodeURIComponent (s : String) : String :=
  ⟨(s.data.map (fun c =>
      if isUriUnreserved c then [c] else ((utf8Bytes c.toNat).map byteHex).flatten)).flatten⟩

/-! The extension descriptor and the field extractor (content.js). -/

/-- VSIXDownloader.extensionData from content.js: the in-memory record of
one listing page, with all fields initialised to empty strings. -/
structure ExtensionData where
  version : String
  publisher : String
  identifier : String
  name : String
deriving DecidableEq, Repr

/-- The freshly constructed descriptor: every field is the empty string. -/
def emptyData : ExtensionData :=
  ⟨"", "", "", ""⟩

/-- VSIXDownloader.hasValidData from content.js: the JavaScript truthiness
conjunction of identifier, version and publisher, which for strings means
each of those three fields is non-empty. -/
def hasValidData (d : ExtensionData) : Bool :=
  d.identifier != "" && d.version != "" && d.publisher != ""

/-- Prefix test for one run of decimal digits followed by a dot, used by
the version-shape predicates below. -/
def digitsDot : List Char → Option (List Char)
  | l =>
    let d := l.takeWhile Char.isDigit
    let r := l.dropWhile Char.isDigit
    if d.isEmpty then none
    else
      match r with
      | '.' :: r2 => some r2
      | _ => none

/-- VSIXDownloader.isValidVersion from content.js: the test of the
anchored regular expression digits dot digits dot digits as a prefix of
the string (trailing characters are not constrained). -/
def isValidVersion (s : String) : Bool :=
  match digitsDot s.data with
  | none => false
  | some r1 =>
    match digitsDot r1 with
    | none => false
    | some r2 => !(r2.takeWhile Char.isDigit).isEmpty

/-- VSIXDownloader.extractFromURL from content.js, with the already decoded
itemName query parameter of the page address as input (none when the
parameter is absent): the identifier is set to the sanitized parameter,
and when splitting on dots yields at least two parts, publisher is set to
the sanitized first part and name to the sanitized join of the rest. -/
def extractFromURL (itemName : Option String) (d : ExtensionData) : ExtensionData :=
  match itemName with
  | none => d
  | some it =>
    let d1 := { d with identifier := sanitizeText it }
    match splitDot it.data with
    | p0 :: p1 :: rest =>
      { d1 with publisher := ⟨sanitizeTextChars p0⟩, name := ⟨sanitizeTextChars (joinDot (p1 :: rest))⟩ }
    | _ => d1

/-! The URL resolver (content.js downloadFile) and the filename
conventions of the individual scripts. -/

/-- VSIXDownloader.downloadFile from content.js, the pure part: the
download URL and filename handed to the background download request, for
a given publisher, extension name, version and action type string.  The
URL embeds each variable segment through encodeURIComponent; the filename
is publisher dot extension hyphen version with the kind extension. -/
def downloadFileRequest (publisher extension version ty : String) : String × String :=
  if ty = "vsix" then
    ("https://" ++ encodeURIComponent publisher ++
       ".gallery.vsassets.io/_apis/public/gallery/publisher/" ++ encodeURIComponent publisher ++
       "/extension/" ++ encodeURIComponent extension ++ "/" ++ encodeURIComponent version ++
       "/assetbyname/Microsoft.VisualStudio.Services.VSIXPackage",
     publisher ++ "." ++ extension ++ "-" ++ version ++ ".vsix")
  else
    ("https://marketplace.visualstudio.com/_apis/public/gallery/publishers/" ++
       encodeURIComponent publisher ++ "/vsextensions/" ++ encodeURIComponent extension ++
       "/" ++ encodeURIComponent version ++ "/vspackage",
     publisher ++ "." ++ extension ++ "-" ++ version ++ ".vsixpackage")

/-- The two package kinds of the specification. -/
inductive PackageKind where
  | vsix
  | vsixpackage
deriving DecidableEq, Repr

/-- Modelled from the spec: the URL Resolver.  Each of the two fixed
templates with the three variable segments percent-encoded independently
before substitution; hosts and asset name are fixed constants. -/
def resolveUrl (publisher extensionName version : String) : PackageKind → String
  | .vsix =>
    "https://" ++ encodeURIComponent publisher ++
      ".gallery.vsassets.io/_apis/public/gallery/publisher/" ++ encodeURIComponent publisher ++
      "/extension/" ++ encodeURIComponent extensionName ++ "/" ++ encodeURIComponent version ++
      "/assetbyname/Microsoft.VisualStudio.Services.VSIXPackage"
  | .vsixpackage =>
    "https://marketplace.visualstudio.com/_apis/public/gallery/publishers/" ++
      encodeURIComponent publisher ++ "/vsextensions/" ++ encodeURIComponent extensionName ++
      "/" ++ encodeURIComponent version ++ "/vspackage"

/-- extensionData.getFileName from downloadVSIX-legacy-with-progress.js
(and ExtensionManager.getFileName of the enhanced script): identifier,
underscore, version, dot, the type string. -/
def getFileName (identifier version ty : String) : String :=
  identifier ++ "_" ++ version ++ "." ++ ty

/-- PopupManager.handleDownload from the popup script, the pure part:
splits the identifier on dots (failing when there are fewer than two
parts), then builds the encoded download URL and the filename
identifier hyphen version with the kind extension. -/
def popupDownloadRequest (identifier version ty : String) : Option (String × String) :=
  match splitDot identifier.data with
  | p0 :: p1 :: rest =>
    let publisher : String := ⟨p0⟩
    let extension : String := ⟨joinDot (p1 :: rest)⟩
    if ty = "vsix" then
      some ("https://" ++ encodeURIComponent publisher ++
              ".gallery.vsassets.io/_apis/public/gallery/publisher/" ++ encodeURIComponent publisher ++
              "/extension/" ++ encodeURIComponent extension ++ "/" ++ encodeURIComponent version ++
              "/assetbyname/Microsoft.VisualStudio.Services.VSIXPackage",
            identifier ++ "-" ++ version ++ ".vsix")
    else
      some ("https://marketplace.visualstudio.com/_apis/public/gallery/publishers/" ++
              encodeURIComponent publisher ++ "/vsextensions/" ++ encodeURIComponent extension ++
              "/" ++ encodeURIComponent version ++ "/vspackage",
            identifier ++ "-" ++ version ++ ".vsixpackage")
  | _ => none

/-! The extraction orchestrator of content.js (startProcessing): retry
counter, in-flight flag, and the exponential backoff schedule. -/

/-- VSIXDownloader.maxRetries from the content.js constructor. -/
def maxRetries : Nat := 5

/-- VSIXDownloader.retryDelay from the content.js constructor, in
time-units. -/
def retryDelay : Nat := 1000

/-- The orchestrator state of one page view: the retry counter and the
single in-flight flag guarding re-entrancy. -/
structure OrchState where
  retryAttempts : Nat
  isProcessing : Bool
deriving DecidableEq, Repr

/-- Outcome of one entry into startProcessing: skipped because a cycle is
in flight, completed with valid data, a retry scheduled after a delay, or
exhausted with no timer pending. -/
inductive OrchStep where
  | busy
  | completed (s : OrchState)
  | scheduled (s : OrchState) (delay : Nat)
  | exhausted (s : OrchState)
deriving DecidableEq, Repr

/-- One entry into VSIXDownloader.startProcessing from content.js, for a
page on which extraction yields valid data exactly when extractCompletes
holds: the in-flight guard returns early; otherwise the extractor runs
once, and on incomplete data with retryAttempts below maxRetries the
counter is incremented and a re-entry is scheduled after
retryDelay times two to the power of the new counter minus one, the
finally block clearing the flag once the counter has reached maxRetries
or the data is valid. -/
def startProcessingStep (extractCompletes : Bool) (s : OrchState) : OrchStep :=
  if s.isProcessing then .busy
  else if extractCompletes then .completed { s with isProcessing := false }
  else if s.retryAttempts < maxRetries then
    let r := s.retryAttempts + 1
    .scheduled { retryAttempts := r, isProcessing := if maxRetries ≤ r then false else true }
      (retryDelay * 2 ^ (r - 1))
  else .exhausted { s with isProcessing := false }

/-- Driver of the orchestrator for a page that never yields valid data:
follows each scheduled timer (whose callback clears the in-flight flag
and re-enters startProcessing), returning the number of extraction
attempts, the list of scheduled delays in order, and the state at which
the loop stopped.  The fuel bounds the number of timer hops followed. -/
def orchRun (extractCompletes : Bool) : Nat → OrchState → Nat × List Nat × OrchState
  | 0, s => (0, [], s)
  | fuel + 1, s =>
    match startProcessingStep extractCompletes s with
    | .busy => (0, [], s)
    | .completed s1 => (1, [], s1)
    | .exhausted s1 => (1, [], s1)
    | .scheduled s1 d =>
      let r := orchRun extractCompletes fuel { s1 with isProcessing := false }
      (r.1 + 1, d :: r.2.1, r.2.2)

/-! The message bridge retry loop of the popup script
(PopupManager.sendMessageWithRetry). -/

/-- PopupManager.maxRetries from the popup script constructor. -/
def popupMaxRetries : Nat := 3

/-- PopupManager.sendMessageWithRetry for a content script that never
responds, starting at the given one-based attempt number: each call makes
one send attempt; on failure, while the attempt number is below
popupMaxRetries a retry is scheduled after 300 times two to the power of
the attempt number minus one, and otherwise the promise is rejected.
Returns the total number of attempts, the scheduled delays in order, and
whether the call finally failed with an error.  The fuel bounds the
number of retries followed. -/
def msgDriver : Nat → Nat → Nat × List Nat × Bool
  | 0, _ => (0, [], false)
  | fuel + 1, attempt =>
    if attempt < popupMaxRetries then
      let r := msgDriver fuel (attempt + 1)
      (r.1 + 1, (300 * 2 ^ (attempt - 1)) :: r.2.1, r.2.2)
    else (1, [], true)

/-! The autoInject gate of content.js (checkAutoInject). -/

/-- The settings record read from the settings store, with the one
boolean the content script consults. -/
structure StoredSettings where
  autoInject : Bool
deriving DecidableEq, Repr

/-- VSIXDownloader.checkAutoInject from content.js, as the decision
whether injectDownloadButtons is invoked: an already injected page is
left alone; otherwise a successful settings read gates injection on the
autoInject value, and a failed read (the catch branch) injects anyway. -/
def checkAutoInject (isInjected : Bool) (settingsRead : Except String StoredSettings) : Bool :=
  if isInjected then false
  else
    match settingsRead with
    | .ok s => s.autoInject
    | .error _ => true

/-! The background service worker: URL validation before the download
capability is invoked (validateDownloadRequest, handleDownloadRequest). -/

/-- Scheme and lowercased host of a parsed URL. -/
structure ParsedUrl where
  protocol : String
  hostname : String
deriving DecidableEq, Repr

/-- Splits a character list at the first occurrence of colon slash slash,
returning the part before and the part after, when present. -/
def splitScheme : List Char → Option (List Char × List Char)
  | [] => none
  | ':' :: '/' :: '/' :: rest => some ([], rest)
  | c :: rest =>
    match splitScheme rest with
    | some (a, b) => some (c :: a, b)
    | none => none

/-- Characters allowed in a URL scheme after its first letter. -/
def isSchemeChar (c : Char) : Bool :=
  c.isAlpha || c.isDigit || c == '+' || c == '-' || c == '.'

/-- Model of the WHATWG URL constructor used by the service worker,
restricted to hierarchical scheme colon slash slash URLs: the scheme must
be a letter followed by scheme characters, the authority runs to the
next slash, question mark or hash, user information up to the last at
sign and a port after a colon are dropped, and the host must be
non-empty; scheme and host are lowercased, the protocol keeping its
trailing colon.  Other inputs give none, modelling a thrown TypeError. -/
def parseUrlChars (l : List Char) : Option ParsedUrl :=
  match splitScheme l with
  | none => none
  | some (scheme, rest) =>
    match scheme with
    | [] => none
    | c0 :: s1 =>
      if !c0.isAlpha then none
      else if !(s1.all isSchemeChar) then none
      else
        let authority := rest.takeWhile (fun c => !(c == '/' || c == '?' || c == '#'))
        let hostport := (authority.reverse.takeWhile (fun c => !(c == '@'))).reverse
        let host := hostport.takeWhile (fun c => !(c == ':'))
        if host.isEmpty then none
        else some ⟨⟨(scheme.map Char.toLower) ++ [':']⟩, ⟨host.map Char.toLower⟩⟩

/-- The URL constructor model lifted to strings. -/
def parseUrl (s : String) : Option ParsedUrl :=
  parseUrlChars s.data

/-- The domain allow-list check of validateDownloadRequest: the hostname
equals one of the two allowed domains or ends with a dot followed by one
of them. -/
def allowedHost (h : String) : Bool :=
  ["marketplace.visualstudio.com", "gallery.vsassets.io"].any
    (fun d => h == d || h.endsWith ("." ++ d))

/-- Whether a URL string passes every URL-related requirement of the
validator: it parses, its protocol is https, and its host is on the
allow-list. -/
def urlPermitted (s : String) : Bool :=
  match parseUrl s with
  | some u => u.protocol == "https:" && allowedHost u.hostname
  | none => false

/-- A download request message as received by the background worker. -/
structure DownloadRequestMsg where
  url : String
  filename : String
deriving DecidableEq, Repr

/-- Result of validateDownloadRequest: valid, or invalid with the error
message the worker sends back. -/
inductive ValidationOutcome where
  | valid
  | invalid (msg : String)
deriving DecidableEq, Repr

/-- validateDownloadRequest from the background service worker: checks a
present URL and filename, URL parseability, the two-domain allow-list,
and the https protocol, in that order. -/
def validateDownloadRequest (r : DownloadRequestMsg) : ValidationOutcome :=
  if r.url = "" then .invalid "Invalid or missing URL"
  else if r.filename = "" then .invalid "Invalid or missing filename"
  else
    match parseUrl r.url with
    | none => .invalid "Malformed URL"
    | some u =>
      if !(allowedHost u.hostname) then .invalid ("Domain not allowed: " ++ u.hostname)
      else if !(u.protocol == "https:") then .invalid "Only HTTPS URLs are allowed"
      else .valid

/-- What handleDownloadRequest replies and whether it reached the
download capability. -/
structure HandleOutcome where
  success : Bool
  error : Option String
  capabilityInvoked : Bool
deriving DecidableEq, Repr

/-- handleDownloadRequest from the background service worker, the control
flow up to the capability call: an invalid request is answered with its
error and initiateDownload is never reached; a valid one goes on to
invoke the download capability. -/
def handleDownloadRequest (r : DownloadRequestMsg) : HandleOutcome :=
  match validateDownloadRequest r with
  | .invalid msg => ⟨false, some msg, false⟩
  | .valid => ⟨true, none, true⟩

/-! The version extraction strategies of content.js (extractVersion and
its three sub-strategies), over an abstract read-only page document. -/

/-- A JavaScript word character as used by word boundaries and classes:
letter, digit or underscore. -/
def isWordChar (c : Char) : Bool :=
  c.isAlpha || c.isDigit || c == '_'

/-- No word character follows here, the closing word boundary test. -/
def boundaryOk (rest : List Char) : Bool :=
  match rest with
  | [] => true
  | c :: _ => !isWordChar c

/-- Attempt of the version regular expression (word boundary, digits dot
digits dot digits with an optional dot digits, word boundary) at the
start of the list, returning the captured version characters.  The
optional fourth group is taken greedily and dropped again when the
closing boundary fails after it, as regular expression backtracking
does. -/
def matchVerAt (l : List Char) : Option (List Char) :=
  let d1 := l.takeWhile Char.isDigit
  let r1 := l.dropWhile Char.isDigit
  if d1.isEmpty then none
  else
    match r1 with
    | '.' :: r2 =>
      let d2 := r2.takeWhile Char.isDigit
      let r3 := r2.dropWhile Char.isDigit
      if d2.isEmpty then none
      else
        match r3 with
        | '.' :: r4 =>
          let d3 := r4.takeWhile Char.isDigit
          let r5 := r4.dropWhile Char.isDigit
          if d3.isEmpty then none
          else
            let base := d1 ++ '.' :: d2 ++ '.' :: d3
            match r5 with
            | '.' :: r6 =>
              let d4 := r6.takeWhile Char.isDigit
              let r7 := r6.dropWhile Char.isDigit
              if !d4.isEmpty && boundaryOk r7 then some (base ++ '.' :: d4)
              else if boundaryOk r5 then some base
              else none
            | _ => if boundaryOk r5 then some base else none
        | _ => none
    | _ => none

/-- Scan for the first match of the version regular expression, carrying
whether the previous character was a word character for the opening word
boundary. -/
def findVerAux (prevWord : Bool) : List Char → Option (List Char)
  | [] => none
  | c :: rest =>
    if !prevWord && c.isDigit then
      match matchVerAt (c :: rest) with
      | some v => some v
      | none => findVerAux (isWordChar c) rest
    else findVerAux (isWordChar c) rest

/-- First match of the version regular expression in a character list,
as String.prototype.match returns its first capture. -/
def findVer (l : List Char) : Option (List Char) :=
  findVerAux false l

/-- Substring test on character lists. -/
def hasSub (pat : List Char) : List Char → Bool
  | [] => pat.isPrefixOf []
  | c :: rest => pat.isPrefixOf (c :: rest) || hasSub pat rest

/-- The case-insensitive test for the word version used by the fallback
cell scan of extractVersionFromDOM. -/
def containsVersionWord (l : List Char) : Bool :=
  hasSub "version".data (l.map Char.toLower)

/-- The candidate version fields probed in one parsed structured-data
script block: softwareVersion, version, Version, and offers dot version;
a missing path is none. -/
structure StructuredData where
  softwareVersion : Option String
  version : Option String
  versionCap : Option String
  offersVersion : Option String
deriving DecidableEq, Repr

/-- The embedded page-state version paths probed by
extractVersionFromPageData: extension version, item version and data
version. -/
structure PageState where
  extensionVersion : Option String
  itemVersion : Option String
  dataVersion : Option String
deriving DecidableEq, Repr

/-- The read surface of one marketplace listing page as the extractor
sees it: the decoded itemName query parameter, one entry per
structured-data script block (none when its JSON fails to parse, which
the source catches and skips), the trimmed-to-be texts of the elements
matched by the priority version selectors in order, the texts of the
table-cell, definition and span elements for the fallback scan, and the
embedded page-state object when present. -/
structure PageDoc where
  itemName : Option String
  scriptJson : List (Option StructuredData)
  selectorTexts : List String
  cellTexts : List String
  pageState : Option PageState
deriving DecidableEq, Repr

/-- JavaScript or-chaining over candidate strings: the first present,
non-empty (truthy) one. -/
def firstTruthy : List (Option String) → Option String
  | [] => none
  | none :: rest => firstTruthy rest
  | some s :: rest => if s = "" then firstTruthy rest else some s

/-- VSIXDownloader.extractVersionFromStructuredData from content.js: walk
the script blocks, skip the ones whose JSON failed to parse, or-chain the
candidate fields, and accept the first candidate passing isValidVersion;
returns the updated descriptor and whether a version was found. -/
def extractVersionFromStructuredData
    (scripts : List (Option StructuredData)) (d : ExtensionData) : ExtensionData × Bool :=
  match scripts with
  | [] => (d, false)
  | none :: rest => extractVersionFromStructuredData rest d
  | some sd :: rest =>
    match firstTruthy [sd.softwareVersion, sd.version, sd.versionCap, sd.offersVersion] with
    | some v =>
      if isValidVersion v then ({ d with version := v }, true)
      else extractVersionFromStructuredData rest d
    | none => extractVersionFromStructuredData rest d

/-- The selector walk of extractVersionFromDOM: trim each element text
and return the first capture of the version regular expression. -/
def findVersionInTexts : List String → Option String
  | [] => none
  | t :: rest =>
    match findVer (jsTrim t.data) with
    | some v => some ⟨v⟩
    | none => findVersionInTexts rest

/-- The fallback cell scan of extractVersionFromDOM: among table-cell,
definition and span texts, those containing the word version
case-insensitively are probed with the version regular expression. -/
def cellFallback : List String → Option String
  | [] => none
  | t :: rest =>
    let txt := jsTrim t.data
    if containsVersionWord txt then
      match findVer txt with
      | some v => some ⟨v⟩
      | none => cellFallback rest
    else cellFallback rest

/-- VSIXDownloader.extractVersionFromDOM from content.js: the priority
selector walk, then the fallback cell scan. -/
def extractVersionFromDOM (doc : PageDoc) (d : ExtensionData) : ExtensionData × Bool :=
  match findVersionInTexts doc.selectorTexts with
  | some v => ({ d with version := v }, true)
  | none =>
    match cellFallback doc.cellTexts with
    | some v => ({ d with version := v }, true)
    | none => (d, false)

/-- VSIXDownloader.extractVersionFromPageData from content.js: or-chain
the embedded page-state version paths and accept a candidate passing
isValidVersion. -/
def extractVersionFromPageData (ps : Option PageState) (d : ExtensionData) : ExtensionData × Bool :=
  match ps with
  | none => (d, false)
  | some st =>
    match firstTruthy [st.extensionVersion, st.itemVersion, st.dataVersion] with
    | some v => if isValidVersion v then ({ d with version := v }, true) else (d, false)
    | none => (d, false)

/-- VSIXDownloader.extractVersion from content.js: the three strategies
in order, each attempted only when the previous ones found nothing. -/
def extractVersion (doc : PageDoc) (d : ExtensionData) : ExtensionData :=
  match extractVersionFromStructuredData doc.scriptJson d with
  | (d1, true) => d1
  | (d1, false) =>
    match extractVersionFromDOM doc d1 with
    | (d2, true) => d2
    | (d2, false) => (extractVersionFromPageData doc.pageState d2).1

/-- VSIXDownloader.extractMetadata from content.js: URL extraction first,
then the version strategies.  Every fallible operation of the source is
wrapped in a catch there and is modelled totally here, so the extractor
is a total function: it cannot throw. -/
def extractMetadata (doc : PageDoc) (d : ExtensionData) : ExtensionData :=
  extractVersion doc (extractFromURL doc.itemName d)

/-- Whether one structured-data script block yields an accepted version. -/
def scriptYields (s : Option StructuredData) : Bool :=
  match s with
  | none => false
  | some sd =>
    match firstTruthy [sd.softwareVersion, sd.version, sd.versionCap, sd.offersVersion] with
    | some v => isValidVersion v
    | none => false

/-- Whether the embedded page state yields an accepted version. -/
def pageStateYields (ps : Option PageState) : Bool :=
  match ps with
  | none => false
  | some st =>
    match firstTruthy [st.extensionVersion, st.itemVersion, st.dataVersion] with
    | some v => isValidVersion v
    | none => false

/-- Whether any version strategy of the document succeeds: some script
block yields an accepted version, some selector text matches the version
regular expression, some fallback cell both mentions the word version
and matches it, or the page state yields one. -/
def docYieldsVersion (doc : PageDoc) : Bool :=
  doc.scriptJson.any scriptYields ||
    doc.selectorTexts.any (fun t => (findVer (jsTrim t.data)).isSome) ||
    doc.cellTexts.any
      (fun t => containsVersionWord (jsTrim t.data) && (findVer (jsTrim t.data)).isSome) ||
    pageStateYields doc.pageState

/-! Filename sanitization of the background service worker
(sanitizeFilename). -/

/-- The forbidden filesystem characters of the first replacement class:
less-than, greater-than, colon, double quote, pipe, question mark,
asterisk. -/
def isForbiddenFsChar (c : Char) : Bool :=
  c == '<' || c == '>' || c == ':' || c == '"' || c == '|' || c == '?' || c == '*'

/-- First sanitization step: each forbidden character becomes an
underscore. -/
def replaceForbidden (l : List Char) : List Char :=
  l.map (fun c => if isForbiddenFsChar c then '_' else c)

/-- Second step, the global replacement of dot dot by underscore: each
non-overlapping pair of adjacent dots, scanned left to right, becomes
one underscore. -/
def stripDotDot : List Char → List Char
  | [] => []
  | [c] => [c]
  | c :: d :: rest =>
    if c == '.' && d == '.' then '_' :: stripDotDot rest
    else c :: stripDotDot (d :: rest)

/-- Third step: a leading dot becomes an underscore. -/
def replaceLeadingDot (l : List Char) : List Char :=
  match l with
  | [] => []
  | c :: rest => if c == '.' then '_' :: rest else c :: rest

/-- Fourth step, the global replacement of whitespace runs by one
underscore each. -/
def collapseWs : List Char → List Char
  | [] => []
  | [c] => if isJsWs c then ['_'] else [c]
  | c :: d :: rest =>
    if isJsWs c then
      if isJsWs d then collapseWs (d :: rest)
      else '_' :: collapseWs (d :: rest)
    else c :: collapseWs (d :: rest)

/-- Suffix test on character lists, as String.prototype.endsWith. -/
def endsWithList (suffix l : List Char) : Bool :=
  l.drop (l.length - suffix.length) == suffix

/-- Fifth step: append the default dot vsix extension unless the name
already ends in dot vsix or dot vsixpackage. -/
def ensureVsixExt (l : List Char) : List Char :=
  if endsWithList ".vsix".data l || endsWithList ".vsixpackage".data l then l
  else l ++ ".vsix".data

/-- Index of the last dot in a character list, as lastIndexOf returns it
when one exists. -/
def lastDotIdx : List Char → Option Nat
  | [] => none
  | c :: rest =>
    match lastDotIdx rest with
    | some i => some (i + 1)
    | none => if c == '.' then some 0 else none

/-- Last step: a name longer than 200 characters is cut to 200,
re-attaching the part from its last dot onward; with no dot the
substring arithmetic of the source leaves the name unchanged. -/
def truncate200 (l : List Char) : List Char :=
  if l.length > 200 then
    match lastDotIdx l with
    | some i =>
      let ext := l.drop i
      l.take (200 - ext.length) ++ ext
    | none => l
  else l

/-- sanitizeFilename from the background service worker on character
lists: forbidden characters, dot dot pairs, a leading dot and whitespace
runs all become underscores, surrounding whitespace is trimmed, a vsix
extension is appended when no valid extension is present, and the result
is truncated to 200 characters preserving the extension. -/
def sanitizeFilenameChars (l : List Char) : List Char :=
  truncate200 (ensureVsixExt (jsTrim (collapseWs (replaceLeadingDot (stripDotDot (replaceForbidden l))))))

/-- sanitizeFilename from the background service worker lifted to
strings. -/
def sanitizeFilename (s : String) : String :=
  ⟨sanitizeFilenameChars s.data⟩

/-- Whether a character list contains two adjacent dots, the substring
dot dot. -/
def hasDotDot : List Char → Bool
  | [] => false
  | [_] => false
  | c :: d :: rest => (c == '.' && d == '.') || hasDotDot (d :: rest)

/-- Modelled from the spec: the derived isComplete predicate on a
descriptor, true exactly when publisher, extension name and version are
all non-empty and the version passes the version-shape test. -/
def specIsComplete (d : ExtensionData) : Bool :=
  d.publisher != "" && d.name != "" && d.version != "" && isValidVersion d.version

/-! Theorems.  Claim theorems carry the claim identifier from the review
list; the surrounding lemmas are shared supporting facts. -/

/-- C1: for every publisher, extension name and version, the download URL
built by the content script for the vsix kind, and for the vsixpackage
kind, equals the corresponding fixed template of the URL Resolver with
the three variable segments percent-encoded independently before
substitution, hosts and asset name being fixed constants. -/
theorem c1_resolveUrl_templates (p e v : String) :
    (downloadFileRequest p e v "vsix").1 = resolveUrl p e v PackageKind.vsix ∧
    (downloadFileRequest p e v "vsixpackage").1 = resolveUrl p e v PackageKind.vsixpackage := by
  constructor
  · rfl
  · rfl

/-- C3 counterexample: the descriptor with publisher p, name e,
identifier p.e and the invalid version abc satisfies hasValidData, while
the predicate claimed by the specification is false on it, because the
version fails the version-shape test. -/
theorem c3_isComplete_cex :
    hasValidData ⟨"abc", "p", "p.e", "e"⟩ = true ∧
      specIsComplete ⟨"abc", "p", "p.e", "e"⟩ = false := by
  constructor
  · decide
  · decide

/-- C3 amended: the completeness predicate the code actually uses is
that identifier, version and publisher are all non-empty; the extension
name is not consulted and the version shape is not checked. -/
theorem c3_hasValidData_iff (d : ExtensionData) :
    hasValidData d = true ↔ (d.identifier ≠ "" ∧ d.version ≠ "" ∧ d.publisher ≠ "") := by
  simp [hasValidData, Bool.and_eq_true, bne_iff_ne, and_assoc]

/-- C4: on a page that never yields a complete descriptor the
orchestrator performs exactly six extraction attempts, scheduling the
delays 1000, 2000, 4000, 8000, 16000 before the five retries; extra fuel
changes nothing, the delays follow the doubling schedule with base 1000
and are non-decreasing, and from the final state a further entry is
exhausted, scheduling no timer. -/
theorem c4_orchestrator_retry_schedule :
    orchRun false 6 ⟨0, false⟩ = (6, [1000, 2000, 4000, 8000, 16000], ⟨5, false⟩) ∧
    orchRun false 1000 ⟨0, false⟩ = orchRun false 6 ⟨0, false⟩ ∧
    [1000, 2000, 4000, 8000, 16000] = (List.range maxRetries).map (fun k => retryDelay * 2 ^ k) ∧
    List.Chain' (fun a b : Nat => a ≤ b) [1000, 2000, 4000, 8000, 16000] ∧
    startProcessingStep false ⟨5, false⟩ = .exhausted ⟨5, false⟩ := by
  refine ⟨by decide, by decide, by decide, ?_, by decide⟩
  norm_num [List.chain'_cons, List.chain'_singleton]

/-- C9 counterexample: the delays the popup retry loop schedules for an
unresponsive content script are 300 and 600, not the 600 and 1200 that
the formula 300 times two to the power of the failing attempt number
would give. -/
theorem c9_backoff_formula_cex :
    (msgDriver 3 1).2.1 = [300, 600] ∧
      (msgDriver 3 1).2.1 ≠ [300 * 2 ^ 1, 300 * 2 ^ 2] := by
  constructor
  · decide
  · decide

/-- C9 amended: for an unresponsive target the popup makes exactly three
attempts and then fails with an error; the delay before the retry that
follows failed attempt number a equals 300 times two to the power of
a minus one, so the delays are 300 then 600; extra fuel changes
nothing. -/
theorem c9_retry_schedule_amended :
    msgDriver 3 1 = (3, [300, 600], true) ∧
    msgDriver 100 1 = msgDriver 3 1 ∧
    (msgDriver 3 1).2.1 = (List.range 2).map (fun a => 300 * 2 ^ a) := by
  refine ⟨by decide, by decide, by decide⟩

/-- C10: a failed settings-store read makes checkAutoInject behave
exactly as a read that returned autoInject true, and in particular on a
page without injected buttons the failure still leads to injection. -/
theorem c10_autoInject_failopen (e : String) (b : Bool) :
    checkAutoInject b (Except.error e) = checkAutoInject b (Except.ok ⟨true⟩) ∧
    checkAutoInject false (Except.error e) = true := by
  cases b
  · exact ⟨rfl, rfl⟩
  · exact ⟨rfl, rfl⟩

/-- splitDot never returns the empty list of groups. -/
theorem splitDot_ne_nil : ∀ l : List Char, splitDot l ≠ []
  | [] => by simp [splitDot]
  | c :: rest => by
    have ih := splitDot_ne_nil rest
    by_cases hc : c = '.'
    · simp [splitDot, hc]
    · cases hs : splitDot rest with
      | nil => exact absurd hs ih
      | cons g gs => simp [splitDot, hc, hs]

/-- Splitting a list whose first dot separates a dot-free prefix from the
rest yields that prefix as the first group followed by the groups of the
rest. -/
theorem splitDot_append_dot :
    ∀ (pre post : List Char), ('.' : Char) ∉ pre →
      splitDot (pre ++ '.' :: post) = pre :: splitDot post
  | [], post, _ => by simp [splitDot]
  | c :: pre, post, h => by
    have hc : ¬ c = '.' := fun hh => h (by rw [hh]; exact List.mem_cons_self '.' pre)
    have ih := splitDot_append_dot pre post (fun hm => h (List.mem_cons_of_mem c hm))
    simp [splitDot, hc, ih]

/-- Joining the groups of a split on dots restores the original list. -/
theorem joinDot_splitDot : ∀ l : List Char, joinDot (splitDot l) = l
  | [] => rfl
  | c :: rest => by
    have ih := joinDot_splitDot rest
    by_cases hc : c = '.'
    · subst hc
      cases hs : splitDot rest with
      | nil => exact absurd hs (splitDot_ne_nil rest)
      | cons g gs =>
        rw [hs] at ih
        simp [splitDot, hs, joinDot, ih]
    · cases hs : splitDot rest with
      | nil => exact absurd hs (splitDot_ne_nil rest)
      | cons g gs =>
        rw [hs] at ih
        cases gs with
        | nil => simp [splitDot, hc, hs, joinDot] at ih ⊢; exact ih
        | cons g2 gs2 => simp [splitDot, hc, hs, joinDot] at ih ⊢; exact ih

/-- C2 counterexample: for the itemName value with an ampersand (legal in
a query string when written percent-encoded), the identifier field is the
sanitized value, not the parameter value verbatim. -/
theorem c2_identifier_not_verbatim_cex :
    (extractFromURL (some "a&b.c") emptyData).identifier = "ab.c" ∧
      (extractFromURL (some "a&b.c") emptyData).identifier ≠ "a&b.c" := by
  constructor
  · decide
  · decide

/-- C2 amended: for every itemName containing at least one dot, splitting
happens at the first dot, and each resulting field carries the sanitized
text (the characters stripped by sanitizeText removed and whitespace
trimmed) rather than the verbatim text: publisher is the sanitized part
before the first dot, name is the sanitized remainder after the first
dot (which may contain further dots), and identifier is the sanitized
whole parameter value. -/
theorem c2_extractFromURL_sanitized (pre post : List Char) (d : ExtensionData)
    (h : ('.' : Char) ∉ pre) :
    extractFromURL (some ⟨pre ++ '.' :: post⟩) d =
      { d with identifier := ⟨sanitizeTextChars (pre ++ '.' :: post)⟩,
               publisher := ⟨sanitizeTextChars pre⟩,
               name := ⟨sanitizeTextChars post⟩ } := by
  have h1 := splitDot_append_dot pre post h
  cases hs : splitDot post with
  | nil => exact absurd hs (splitDot_ne_nil post)
  | cons g gs =>
    rw [hs] at h1
    have h2 : joinDot (g :: gs) = post := by rw [← hs]; exact joinDot_splitDot post
    simp [extractFromURL, sanitizeText, h1, h2]

/-- C2 witness: the amended statement instantiated at the claim's own
example itemName. -/
theorem c2_extractFromURL_sanitized_witness :
    extractFromURL (some "publisher.ext") emptyData = ⟨"", "publisher", "publisher.ext", "ext"⟩ := by
  have h := c2_extractFromURL_sanitized "publisher".data "ext".data emptyData (by decide)
  exact h.trans (by decide)

/-- C5 counterexample: for the complete descriptor of the end-to-end
example, the popup hands the download capability the filename with a
hyphen between identifier and version, not the underscore of the claimed
convention. -/
theorem c5_filename_hyphen_cex :
    (popupDownloadRequest "ms-python.python" "2024.0.0" "vsix").map Prod.snd =
        some "ms-python.python-2024.0.0.vsix" ∧
      (popupDownloadRequest "ms-python.python" "2024.0.0" "vsix").map Prod.snd ≠
        some "ms-python.python_2024.0.0.vsix" := by
  constructor
  · decide
  · decide

/-- C5 amended: the legacy and enhanced scripts name the file identifier,
underscore, version, dot, type string; the browser-extension content
script and popup instead use a hyphen before the version, the content
script composing the identifier part as publisher dot extension, with
the dot vsix or dot vsixpackage extension as claimed. -/
theorem c5_filename_conventions (id v p e ty : String) :
    getFileName id v ty = id ++ "_" ++ v ++ "." ++ ty ∧
    (downloadFileRequest p e v "vsix").2 = p ++ "." ++ e ++ "-" ++ v ++ ".vsix" ∧
    (downloadFileRequest p e v "vsixpackage").2 = p ++ "." ++ e ++ "-" ++ v ++ ".vsixpackage" ∧
    (∀ p0 p1 rest, splitDot id.data = p0 :: p1 :: rest →
      (popupDownloadRequest id v "vsix").map Prod.snd = some (id ++ "-" ++ v ++ ".vsix") ∧
      (popupDownloadRequest id v "vsixpackage").map Prod.snd = some (id ++ "-" ++ v ++ ".vsixpackage")) := by
  refine ⟨rfl, rfl, rfl, ?_⟩
  intro p0 p1 rest hsp
  constructor
  · simp [popupDownloadRequest, hsp]
  · simp [popupDownloadRequest, hsp]

/-- C5 witness: the amended statement instantiated at a concrete
two-part identifier. -/
theorem c5_filename_conventions_witness :
    (popupDownloadRequest "a.b" "1.0.0" "vsix").map Prod.snd = some "a.b-1.0.0.vsix" := by
  have h := ((c5_filename_conventions "a.b" "1.0.0" "p" "e" "vsix").2.2.2 ['a'] ['b'] [] (by decide)).1
  exact h.trans (by decide)

/-- A request the validator accepts has a URL that parses, is https and
has an allow-listed host. -/
theorem valid_implies_permitted (r : DownloadRequestMsg)
    (h : validateDownloadRequest r = .valid) : urlPermitted r.url = true := by
  unfold validateDownloadRequest at h
  by_cases h1 : r.url = ""
  · simp [h1] at h
  · simp only [h1, if_false] at h
    by_cases h2 : r.filename = ""
    · simp [h2] at h
    · simp only [h2, if_false] at h
      cases hp : parseUrl r.url with
      | none => rw [hp] at h; exact absurd h (by simp)
      | some u =>
        rw [hp] at h
        by_cases ha : allowedHost u.hostname
        · by_cases hpr : u.protocol == "https:"
          · unfold urlPermitted
            rw [hp]
            simp [ha, hpr]
          · simp [ha, hpr] at h
        · simp [ha] at h

/-- C6: every download request whose URL does not parse, is not https,
or has a host outside the two-domain allow-list is answered with a
failure and the download capability is never invoked. -/
theorem c6_reject_disallowed_url (r : DownloadRequestMsg)
    (h : urlPermitted r.url = false) :
    (handleDownloadRequest r).capabilityInvoked = false ∧
      (handleDownloadRequest r).success = false := by
  cases hv : validateDownloadRequest r with
  | invalid msg => simp [handleDownloadRequest, hv]
  | valid =>
    have := valid_implies_permitted r hv
    rw [h] at this
    exact absurd this (by simp)

/-- C6 witness: the resolved URL with host evil dot com is rejected
before any capability call. -/
theorem c6_reject_disallowed_url_witness :
    urlPermitted "https://evil.com/pkg.vsix" = false ∧
      (handleDownloadRequest ⟨"https://evil.com/pkg.vsix", "pkg.vsix"⟩).capabilityInvoked = false ∧
      (handleDownloadRequest ⟨"https://evil.com/pkg.vsix", "pkg.vsix"⟩).success = false := by
  refine ⟨by decide, ?_, ?_⟩
  · exact (c6_reject_disallowed_url ⟨"https://evil.com/pkg.vsix", "pkg.vsix"⟩ (by decide)).1
  · exact (c6_reject_disallowed_url ⟨"https://evil.com/pkg.vsix", "pkg.vsix"⟩ (by decide)).2

/-- When no structured-data script block yields an accepted version, the
structured-data strategy leaves the descriptor unchanged and reports
failure. -/
theorem structuredData_of_no_yield :
    ∀ (scripts : List (Option StructuredData)) (d : ExtensionData),
      scripts.any scriptYields = false →
      extractVersionFromStructuredData scripts d = (d, false)
  | [], _, _ => rfl
  | none :: rest, d, h => by
    have hr : rest.any scriptYields = false := by
      simpa [List.any_cons, scriptYields] using h
    simpa [extractVersionFromStructuredData] using
      structuredData_of_no_yield rest d hr
  | some sd :: rest, d, h => by
    have h1 : scriptYields (some sd) = false ∧ rest.any scriptYields = false := by
      simpa [List.any_cons, Bool.or_eq_false_iff] using h
    cases hft : firstTruthy [sd.softwareVersion, sd.version, sd.versionCap, sd.offersVersion] with
    | none =>
      simpa [extractVersionFromStructuredData, hft] using
        structuredData_of_no_yield rest d h1.2
    | some v =>
      have hv : isValidVersion v = false := by
        have := h1.1
        rw [scriptYields] at this
        rw [hft] at this
        exact this
      simpa [extractVersionFromStructuredData, hft, hv] using
        structuredData_of_no_yield rest d h1.2

/-- When no selector text matches the version expression, the selector
walk finds nothing. -/
theorem findVersionInTexts_of_no_match :
    ∀ ts : List String,
      ts.any (fun t => (findVer (jsTrim t.data)).isSome) = false →
      findVersionInTexts ts = none
  | [], _ => rfl
  | t :: rest, h => by
    have h1 : (findVer (jsTrim t.data)).isSome = false ∧
        rest.any (fun t => (findVer (jsTrim t.data)).isSome) = false := by
      simpa [List.any_cons, Bool.or_eq_false_iff] using h
    cases hf : findVer (jsTrim t.data) with
    | some v => rw [hf] at h1; exact absurd h1.1 (by simp)
    | none =>
      simpa [findVersionInTexts, hf] using
        findVersionInTexts_of_no_match rest h1.2

/-- When no fallback cell both mentions the word version and matches the
version expression, the fallback scan finds nothing. -/
theorem cellFallback_of_no_match :
    ∀ ts : List String,
      ts.any (fun t => containsVersionWord (jsTrim t.data) && (findVer (jsTrim t.data)).isSome) = false →
      cellFallback ts = none
  | [], _ => rfl
  | t :: rest, h => by
    have h1 : (containsVersionWord (jsTrim t.data) && (findVer (jsTrim t.data)).isSome) = false ∧
        rest.any (fun t => containsVersionWord (jsTrim t.data) && (findVer (jsTrim t.data)).isSome) = false := by
      simpa [List.any_cons, Bool.or_eq_false_iff] using h
    by_cases hw : containsVersionWord (jsTrim t.data)
    · cases hf : findVer (jsTrim t.data) with
      | some v =>
        rw [hw, hf] at h1
        exact absurd h1.1 (by simp)
      | none =>
        simpa [cellFallback, hw, hf] using cellFallback_of_no_match rest h1.2
    · simp only [Bool.not_eq_true] at hw
      simpa [cellFallback, hw] using cellFallback_of_no_match rest h1.2

/-- When the embedded page state yields no accepted version, the
page-state strategy leaves the descriptor unchanged and reports
failure. -/
theorem pageData_of_no_yield (ps : Option PageState) (d : ExtensionData)
    (h : pageStateYields ps = false) :
    extractVersionFromPageData ps d = (d, false) := by
  cases ps with
  | none => rfl
  | some st =>
    cases hft : firstTruthy [st.extensionVersion, st.itemVersion, st.dataVersion] with
    | none => simp [extractVersionFromPageData, hft]
    | some v =>
      have hv : isValidVersion v = false := by
        have h2 := h
        rw [pageStateYields] at h2
        rw [hft] at h2
        exact h2
      simp [extractVersionFromPageData, hft, hv]

/-- When no strategy of the document succeeds, the version stage leaves
the descriptor completely unchanged. -/
theorem extractVersion_of_no_yield (doc : PageDoc) (d : ExtensionData)
    (h : docYieldsVersion doc = false) : extractVersion doc d = d := by
  have h4 : doc.scriptJson.any scriptYields = false ∧
      doc.selectorTexts.any (fun t => (findVer (jsTrim t.data)).isSome) = false ∧
      doc.cellTexts.any
        (fun t => containsVersionWord (jsTrim t.data) && (findVer (jsTrim t.data)).isSome) = false ∧
      pageStateYields doc.pageState = false := by
    simpa [docYieldsVersion, Bool.or_eq_false_iff, and_assoc] using h
  rw [extractVersion]
  rw [structuredData_of_no_yield doc.scriptJson d h4.1]
  simp only
  rw [extractVersionFromDOM]
  rw [findVersionInTexts_of_no_match doc.selectorTexts h4.2.1]
  rw [cellFallback_of_no_match doc.cellTexts h4.2.2.1]
  simp only
  rw [pageData_of_no_yield doc.pageState d h4.2.2.2]

/-- The URL extraction step never touches the version field. -/
theorem extractFromURL_version (itemName : Option String) (d : ExtensionData) :
    (extractFromURL itemName d).version = d.version := by
  cases itemName with
  | none => rfl
  | some it =>
    cases hs : splitDot it.data with
    | nil => simp [extractFromURL, hs]
    | cons p0 tl =>
      cases tl with
      | nil => simp [extractFromURL, hs]
      | cons p1 rest => simp [extractFromURL, hs]

/-- C8: the field extractor is a total function of the document (every
fallible platform operation of the source is caught there and modelled
totally here), and absent or malformed data leaves fields unchanged, so
a fresh descriptor keeps its empty fields: with no itemName and no
successful version strategy the whole descriptor is returned as given,
and with no successful version strategy the version field is returned as
given whatever the itemName. -/
theorem c8_extract_never_throws_incomplete (doc : PageDoc) (d : ExtensionData) :
    (doc.itemName = none → docYieldsVersion doc = false → extractMetadata doc d = d) ∧
    (docYieldsVersion doc = false → (extractMetadata doc d).version = d.version) := by
  constructor
  · intro h1 h2
    rw [extractMetadata, h1]
    exact extractVersion_of_no_yield doc d h2
  · intro h2
    rw [extractMetadata, extractVersion_of_no_yield doc _ h2]
    exact extractFromURL_version doc.itemName d

/-- C8 witness: a document whose script blocks are malformed or carry no
valid version, whose texts match nothing, and whose page state holds
only falsy or invalid candidates leaves the fresh descriptor empty. -/
theorem c8_extract_never_throws_incomplete_witness :
    extractMetadata
        ⟨none, [none, some ⟨some "", none, some "not-a-version", none⟩],
          ["hello there"], ["no version here 12"], some ⟨some "", none, some "xy"⟩⟩
        emptyData = emptyData := by
  exact (c8_extract_never_throws_incomplete _ emptyData).1 rfl (by decide)

/-- A list without adjacent dots has a tail without adjacent dots. -/
theorem hasDotDot_tail {c : Char} {t : List Char}
    (h : hasDotDot (c :: t) = false) : hasDotDot t = false := by
  cases t with
  | nil => rfl
  | cons d rest =>
    have := h
    rw [hasDotDot] at this
    exact (Bool.or_eq_false_iff.mp this).2

/-- Prepending a non-dot character does not change the adjacent-dots
test. -/
theorem hasDotDot_cons_of_ne {c : Char} (t : List Char)
    (hc : (c == '.') = false) : hasDotDot (c :: t) = hasDotDot t := by
  cases t with
  | nil => simp [hasDotDot]
  | cons d rest => simp [hasDotDot, hc]

/-- A concatenation without adjacent dots has no adjacent dots in either
part. -/
theorem hasDotDot_append_split :
    ∀ {l1 l2 : List Char}, hasDotDot (l1 ++ l2) = false →
      hasDotDot l1 = false ∧ hasDotDot l2 = false := by
  intro l1
  induction l1 with
  | nil => intro l2 h; exact ⟨rfl, h⟩
  | cons c cs ih =>
    intro l2 h
    have htl : hasDotDot (cs ++ l2) = false := hasDotDot_tail (by simpa using h)
    have hrec := ih htl
    refine ⟨?_, hrec.2⟩
    cases cs with
    | nil => rfl
    | cons d ds =>
      have h1 : (c == '.' && d == '.') = false := by
        have := h
        rw [List.cons_append, List.cons_append, hasDotDot] at this
        exact (Bool.or_eq_false_iff.mp this).1
      rw [hasDotDot, h1, Bool.false_or]
      exact hrec.1

/-- A prefix of a list without adjacent dots has no adjacent dots. -/
theorem hasDotDot_take {l : List Char} (n : Nat)
    (h : hasDotDot l = false) : hasDotDot (l.take n) = false := by
  have h2 : hasDotDot (l.take n ++ l.drop n) = false := by
    rw [List.take_append_drop]; exact h
  exact (hasDotDot_append_split h2).1

/-- The dot-dot replacement keeps a non-dot head in place. -/
theorem stripDotDot_head (d : Char) (t : List Char)
    (hd : (d == '.') = false) : (stripDotDot (d :: t)).head? = some d := by
  cases t with
  | nil => rfl
  | cons e r => simp [stripDotDot, hd]

/-- The dot-dot replacement leaves no adjacent dots behind. -/
theorem stripDotDot_noDD : ∀ l : List Char, hasDotDot (stripDotDot l) = false
  | [] => rfl
  | [c] => by simp [stripDotDot, hasDotDot]
  | c :: d :: rest => by
    by_cases hdd : (c == '.' && d == '.') = true
    · have ih := stripDotDot_noDD rest
      rw [stripDotDot]
      rw [if_pos hdd]
      rw [hasDotDot_cons_of_ne _ (by decide)]
      exact ih
    · have hdd2 : (c == '.' && d == '.') = false := by
        simpa using hdd
      have ih := stripDotDot_noDD (d :: rest)
      rw [stripDotDot, if_neg (by simp [hdd2])]
      by_cases hc : (c == '.') = true
      · have hdne : (d == '.') = false := by
          rcases Bool.and_eq_false_iff.mp hdd2 with h | h
          · exact absurd hc (by simp [h])
          · exact h
        have hh := stripDotDot_head d rest hdne
        cases hs : stripDotDot (d :: rest) with
        | nil => rw [hs] at hh; exact absurd hh (by simp)
        | cons x xs =>
          rw [hs] at hh
          have hx : x = d := by simpa using hh
          rw [hs] at ih
          rw [hasDotDot]
          have hcx : (c == '.' && x == '.') = false := by
            rw [hx, hdne, Bool.and_false]
          rw [hcx, Bool.false_or]
          exact ih
      · have hc2 : (c == '.') = false := by simpa using hc
        rw [hasDotDot_cons_of_ne _ hc2]
        exact ih

/-- Replacing a leading dot by an underscore leaves no adjacent dots in a
list that had none. -/
theorem replaceLeadingDot_noDD {l : List Char}
    (h : hasDotDot l = false) : hasDotDot (replaceLeadingDot l) = false := by
  cases l with
  | nil => rfl
  | cons c rest =>
    rw [replaceLeadingDot]
    by_cases hc : (c == '.') = true
    · rw [if_pos hc]
      rw [hasDotDot_cons_of_ne _ (by decide)]
      exact hasDotDot_tail h
    · rw [if_neg hc]
      exact h

/-- Replacing a leading dot only introduces an underscore. -/
theorem replaceLeadingDot_mem {l : List Char} {c : Char}
    (h : c ∈ replaceLeadingDot l) : c = '_' ∨ c ∈ l := by
  cases l with
  | nil => simp [replaceLeadingDot] at h
  | cons x rest =>
    rw [replaceLeadingDot] at h
    by_cases hx : (x == '.') = true
    · rw [if_pos hx] at h
      rcases List.mem_cons.mp h with h1 | h1
      · exact Or.inl h1
      · exact Or.inr (List.mem_cons_of_mem x h1)
    · rw [if_neg hx] at h
      exact Or.inr h

/-- The dot-dot replacement only introduces underscores. -/
theorem stripDotDot_mem : ∀ {l : List Char} {c : Char},
    c ∈ stripDotDot l → c = '_' ∨ c ∈ l
  | [], c, h => by simp [stripDotDot] at h
  | [x], c, h => by
    rw [stripDotDot] at h
    exact Or.inr h
  | x :: d :: rest, c, h => by
    rw [stripDotDot] at h
    by_cases hdd : (x == '.' && d == '.') = true
    · rw [if_pos hdd] at h
      rcases List.mem_cons.mp h with h1 | h1
      · exact Or.inl h1
      · rcases stripDotDot_mem h1 with h2 | h2
        · exact Or.inl h2
        · exact Or.inr (List.mem_cons_of_mem x (List.mem_cons_of_mem d h2))
    · rw [if_neg hdd] at h
      rcases List.mem_cons.mp h with h1 | h1
      · exact Or.inr (by rw [h1]; exact List.mem_cons_self x (d :: rest))
      · rcases stripDotDot_mem h1 with h2 | h2
        · exact Or.inl h2
        · exact Or.inr (List.mem_cons_of_mem x h2)

/-- The whitespace collapse only introduces underscores and keeps
non-whitespace characters. -/
theorem collapseWs_mem : ∀ {l : List Char} {c : Char},
    c ∈ collapseWs l → c = '_' ∨ c ∈ l
  | [], c, h => by simp [collapseWs] at h
  | [x], c, h => by
    rw [collapseWs] at h
    by_cases hx : isJsWs x = true
    · rw [if_pos hx] at h
      exact Or.inl (by simpa using h)
    · rw [if_neg hx] at h
      exact Or.inr h
  | x :: d :: rest, c, h => by
    rw [collapseWs] at h
    by_cases hx : isJsWs x = true
    · rw [if_pos hx] at h
      by_cases hd : isJsWs d = true
      · rw [if_pos hd] at h
        rcases collapseWs_mem h with h2 | h2
        · exact Or.inl h2
        · exact Or.inr (List.mem_cons_of_mem x h2)
      · rw [if_neg hd] at h
        rcases List.mem_cons.mp h with h1 | h1
        · exact Or.inl h1
        · rcases collapseWs_mem h1 with h2 | h2
          · exact Or.inl h2
          · exact Or.inr (List.mem_cons_of_mem x h2)
    · rw [if_neg hx] at h
      rcases List.mem_cons.mp h with h1 | h1
      · exact Or.inr (by rw [h1]; exact List.mem_cons_self x (d :: rest))
      · rcases collapseWs_mem h1 with h2 | h2
        · exact Or.inl h2
        · exact Or.inr (List.mem_cons_of_mem x h2)

/-- The whitespace collapse leaves no whitespace character behind. -/
theorem collapseWs_no_ws : ∀ {l : List Char} {c : Char},
    c ∈ collapseWs l → isJsWs c = false
  | [], c, h => by simp [collapseWs] at h
  | [x], c, h => by
    rw [collapseWs] at h
    by_cases hx : isJsWs x = true
    · rw [if_pos hx] at h
      have : c = '_' := by simpa using h
      rw [this]; decide
    · rw [if_neg hx] at h
      have : c = x := by simpa using h
      rw [this]; simpa using hx
  | x :: d :: rest, c, h => by
    rw [collapseWs] at h
    by_cases hx : isJsWs x = true
    · rw [if_pos hx] at h
      by_cases hd : isJsWs d = true
      · rw [if_pos hd] at h
        exact collapseWs_no_ws h
      · rw [if_neg hd] at h
        rcases List.mem_cons.mp h with h1 | h1
        · rw [h1]; decide
        · exact collapseWs_no_ws h1
    · rw [if_neg hx] at h
      rcases List.mem_cons.mp h with h1 | h1
      · rw [h1]; simpa using hx
      · exact collapseWs_no_ws h1

/-- A whitespace run at the head collapses to an underscore at the
head. -/
theorem collapseWs_head_ws : ∀ (t : List Char) (d : Char),
    isJsWs d = true → (collapseWs (d :: t)).head? = some '_'
  | [], d, hd => by simp [collapseWs, hd]
  | e :: r, d, hd => by
    rw [collapseWs, if_pos hd]
    by_cases he : isJsWs e = true
    · rw [if_pos he]
      exact collapseWs_head_ws r e he
    · rw [if_neg he]
      rfl

/-- A non-whitespace head survives the whitespace collapse. -/
theorem collapseWs_head_nonws (t : List Char) (d : Char)
    (hd : isJsWs d = false) : (collapseWs (d :: t)).head? = some d := by
  cases t with
  | nil => simp [collapseWs, hd]
  | cons e r => simp [collapseWs, hd]

/-- The whitespace collapse leaves no adjacent dots in a list that had
none. -/
theorem collapseWs_noDD : ∀ {l : List Char},
    hasDotDot l = false → hasDotDot (collapseWs l) = false
  | [], _ => rfl
  | [x], _ => by
    rw [collapseWs]
    by_cases hx : isJsWs x = true
    · rw [if_pos hx]; rfl
    · rw [if_neg hx]; rfl
  | x :: d :: rest, h => by
    have hxd : (x == '.' && d == '.') = false := by
      have := h
      rw [hasDotDot] at this
      exact (Bool.or_eq_false_iff.mp this).1
    have htl : hasDotDot (d :: rest) = false := hasDotDot_tail h
    have ih := collapseWs_noDD htl
    rw [collapseWs]
    by_cases hx : isJsWs x = true
    · rw [if_pos hx]
      by_cases hd : isJsWs d = true
      · rw [if_pos hd]; exact ih
      · rw [if_neg hd]
        rw [hasDotDot_cons_of_ne _ (by decide)]
        exact ih
    · rw [if_neg hx]
      by_cases hc : (x == '.') = true
      · have hdne : (d == '.') = false := by
          rcases Bool.and_eq_false_iff.mp hxd with h1 | h1
          · exact absurd hc (by simp [h1])
          · exact h1
        have hhead : (collapseWs (d :: rest)).head? ≠ some '.' := by
          by_cases hd : isJsWs d = true
          · rw [collapseWs_head_ws rest d hd]; decide
          · rw [collapseWs_head_nonws rest d (by simpa using hd)]
            intro hcon
            have : d = '.' := by simpa using hcon
            rw [this] at hdne
            simp at hdne
        cases hs : collapseWs (d :: rest) with
        | nil => rfl
        | cons y ys =>
          rw [hs] at hhead ih
          rw [hasDotDot]
          have hy : (y == '.') = false := by
            by_cases hyy : y = '.'
            · exact absurd (by simp [hyy]) hhead
            · simpa using hyy
          rw [Bool.and_eq_false_iff.mpr (Or.inr hy), Bool.false_or]
          exact ih
      · rw [hasDotDot_cons_of_ne _ (by simpa using hc)]
        exact ih

/-- dropWhile is the identity when no element satisfies the predicate. -/
theorem dropWhile_of_none {p : Char → Bool} {l : List Char}
    (h : ∀ c ∈ l, p c = false) : l.dropWhile p = l := by
  cases l with
  | nil => rfl
  | cons c rest =>
    rw [List.dropWhile_cons]
    rw [h c (List.mem_cons_self c rest)]
    simp

/-- Trimming a list without whitespace characters changes nothing. -/
theorem jsTrim_of_no_ws {l : List Char}
    (h : ∀ c ∈ l, isJsWs c = false) : jsTrim l = l := by
  rw [jsTrim]
  rw [dropWhile_of_none h]
  rw [dropWhile_of_none (fun c hc => h c (List.mem_reverse.mp hc))]
  exact List.reverse_reverse l

/-- The forbidden-character replacement leaves no forbidden character. -/
theorem replaceForbidden_ok {l : List Char} {c : Char}
    (h : c ∈ replaceForbidden l) : isForbiddenFsChar c = false := by
  rw [replaceForbidden] at h
  rcases List.mem_map.mp h with ⟨x, _, hx⟩
  by_cases hf : isForbiddenFsChar x = true
  · rw [if_pos hf] at hx
    rw [← hx]; decide
  · rw [if_neg hf] at hx
    rw [← hx]
    simpa using hf

/-- A list passing the suffix test decomposes as its remaining prefix
followed by the suffix. -/
theorem endsWithList_decomp {suffix l : List Char}
    (h : endsWithList suffix l = true) :
    l = l.take (l.length - suffix.length) ++ suffix := by
  rw [endsWithList] at h
  have h2 : l.drop (l.length - suffix.length) = suffix := beq_iff_eq.mp h
  conv_lhs => rw [← List.take_append_drop (l.length - suffix.length) l]
  rw [h2]

/-- Extension normalization decomposes the result into a body drawn from
the input, without adjacent dots when the input had none, followed by
one of the two valid extensions. -/
theorem ensureVsixExt_decomp (l : List Char) :
    ∃ body,
      (ensureVsixExt l = body ++ ".vsix".data ∨ ensureVsixExt l = body ++ ".vsixpackage".data) ∧
      (∀ c ∈ body, c ∈ l) ∧
      (hasDotDot l = false → hasDotDot body = false) := by
  rw [ensureVsixExt]
  by_cases h1 : endsWithList ".vsix".data l = true
  · refine ⟨l.take (l.length - ".vsix".data.length), Or.inl ?_, ?_, ?_⟩
    · rw [if_pos (by rw [h1]; rfl)]
      exact endsWithList_decomp h1
    · exact fun c hc => List.take_subset _ l hc
    · exact fun hdd => hasDotDot_take _ hdd
  · by_cases h2 : endsWithList ".vsixpackage".data l = true
    · refine ⟨l.take (l.length - ".vsixpackage".data.length), Or.inr ?_, ?_, ?_⟩
      · rw [if_pos (by rw [h2]; simp)]
        exact endsWithList_decomp h2
      · exact fun c hc => List.take_subset _ l hc
      · exact fun hdd => hasDotDot_take _ hdd
    · refine ⟨l, Or.inl ?_, fun c hc => hc, fun hdd => hdd⟩
      rw [if_neg (by simp [h1, h2])]

/-- A list without dots has no last dot index. -/
theorem lastDotIdx_of_no_dot : ∀ {l : List Char}, ('.' : Char) ∉ l → lastDotIdx l = none
  | [], _ => rfl
  | c :: rest, h => by
    have hrest : lastDotIdx rest = none :=
      lastDotIdx_of_no_dot (fun hm => h (List.mem_cons_of_mem c hm))
    have hc : (c == '.') = false := by
      have : ¬ c = '.' := fun hh => h (by rw [hh]; exact List.mem_cons_self '.' rest)
      simpa using this
    rw [lastDotIdx, hrest, hc]
    rfl

/-- The last dot of a list ending in a dot followed by dot-free
characters sits exactly before those characters. -/
theorem lastDotIdx_append_last {t : List Char} (hnd : ('.' : Char) ∉ t) :
    ∀ body : List Char, lastDotIdx (body ++ '.' :: t) = some body.length
  | [] => by
    rw [List.nil_append, lastDotIdx, lastDotIdx_of_no_dot hnd]
    rfl
  | c :: body => by
    rw [List.cons_append, lastDotIdx, lastDotIdx_append_last hnd body]
    rfl

/-- Truncation keeps the trailing extension block, keeps the body drawn
from the original body without adjacent dots, and bounds the length by
200 when the extension block fits. -/
theorem truncate200_decomp (body t : List Char) (hnd : ('.' : Char) ∉ t)
    (hle : t.length + 1 ≤ 200) (hbdd : hasDotDot body = false) :
    ∃ body2,
      truncate200 (body ++ '.' :: t) = body2 ++ '.' :: t ∧
      (∀ c ∈ body2, c ∈ body) ∧
      hasDotDot body2 = false ∧
      (truncate200 (body ++ '.' :: t)).length ≤ 200 := by
  have hll : (body ++ '.' :: t).length = body.length + (t.length + 1) := by
    simp [List.length_append]
  by_cases hlen : (body ++ '.' :: t).length > 200
  · have hlen2 : body.length + (t.length + 1) > 200 := by omega
    have hdrop : (body ++ '.' :: t).drop body.length = '.' :: t := List.drop_left body ('.' :: t)
    have hext : ('.' :: t).length = t.length + 1 := by simp
    have heq : truncate200 (body ++ '.' :: t) =
        (body ++ '.' :: t).take (200 - (t.length + 1)) ++ '.' :: t := by
      rw [truncate200, if_pos hlen, lastDotIdx_append_last hnd body]
      simp only [hdrop, hext]
    have hk : 200 - (t.length + 1) ≤ body.length := by omega
    have htake : (body ++ '.' :: t).take (200 - (t.length + 1)) =
        body.take (200 - (t.length + 1)) := by
      rw [List.take_append_eq_append_take]
      rw [Nat.sub_eq_zero_of_le hk]
      simp
    refine ⟨body.take (200 - (t.length + 1)), ?_, ?_, ?_, ?_⟩
    · rw [heq, htake]
    · exact fun c hc => List.take_subset _ body hc
    · exact hasDotDot_take _ hbdd
    · rw [heq, htake]
      have hlt : (body.take (200 - (t.length + 1))).length = 200 - (t.length + 1) := by
        rw [List.length_take]
        omega
      rw [List.length_append, hlt, hext]
      omega
  · refine ⟨body, ?_, fun c hc => hc, hbdd, ?_⟩
    · rw [truncate200, if_neg hlen]
    · rw [truncate200, if_neg hlen]
      omega

/-- The extension-appending and truncation tail of the sanitizer turns
any dot-dot-free input of clean characters into a clean body followed by
a valid extension, within 200 characters. -/
theorem sanitizeTail_decomp (X : List Char)
    (hprops : ∀ c ∈ X, isForbiddenFsChar c = false ∧ isJsWs c = false)
    (hdd : hasDotDot X = false) :
    ∃ body,
      (truncate200 (ensureVsixExt X) = body ++ ".vsix".data ∨
        truncate200 (ensureVsixExt X) = body ++ ".vsixpackage".data) ∧
      hasDotDot body = false ∧
      (∀ c ∈ body, c ∈ X) ∧
      (∀ c ∈ truncate200 (ensureVsixExt X), isForbiddenFsChar c = false ∧ isJsWs c = false) ∧
      (truncate200 (ensureVsixExt X)).length ≤ 200 := by
  obtain ⟨b1, hor, hmem1, hdd1⟩ := ensureVsixExt_decomp X
  rcases hor with hor | hor
  · have hv : (".vsix" : String).data = '.' :: "vsix".data := rfl
    obtain ⟨b2, heq2, hmem2, hdd2, hlen2⟩ :=
      truncate200_decomp b1 "vsix".data (by decide) (by decide) (hdd1 hdd)
    have hfin : truncate200 (ensureVsixExt X) = b2 ++ ".vsix".data := by
      rw [hor, hv]; exact heq2
    refine ⟨b2, Or.inl hfin, hdd2, ?_, ?_, ?_⟩
    · exact fun c hc => hmem1 c (hmem2 c hc)
    · intro c hc
      rw [hfin] at hc
      rcases List.mem_append.mp hc with h1 | h1
      · exact hprops c (hmem1 c (hmem2 c h1))
      · exact (by decide :
          ∀ c ∈ (".vsix" : String).data, isForbiddenFsChar c = false ∧ isJsWs c = false) c h1
    · rw [hor, hv]; exact hlen2
  · have hv : (".vsixpackage" : String).data = '.' :: "vsixpackage".data := rfl
    obtain ⟨b2, heq2, hmem2, hdd2, hlen2⟩ :=
      truncate200_decomp b1 "vsixpackage".data (by decide) (by decide) (hdd1 hdd)
    have hfin : truncate200 (ensureVsixExt X) = b2 ++ ".vsixpackage".data := by
      rw [hor, hv]; exact heq2
    refine ⟨b2, Or.inr hfin, hdd2, ?_, ?_, ?_⟩
    · exact fun c hc => hmem1 c (hmem2 c hc)
    · intro c hc
      rw [hfin] at hc
      rcases List.mem_append.mp hc with h1 | h1
      · exact hprops c (hmem1 c (hmem2 c h1))
      · exact (by decide :
          ∀ c ∈ (".vsixpackage" : String).data, isForbiddenFsChar c = false ∧ isJsWs c = false) c h1
    · rw [hor, hv]; exact hlen2

/-- C7 counterexample: sanitizing the name a dot yields a dot dot vsix,
whose characters contain the adjacent dot pair the claim rules out, the
appended extension following the trailing dot of the name. -/
theorem c7_dotdot_cex :
    sanitizeFilename "a." = "a..vsix" ∧ hasDotDot (sanitizeFilename "a.").data = true := by
  constructor
  · decide
  · decide

/-- C7 amended: for every input, the sanitized filename contains none of
the forbidden characters, contains no whitespace (runs having been
collapsed to underscores and the remainder trimmed), is at most 200
characters long, and splits as a body followed by the extension dot vsix
or dot vsixpackage where the body contains no adjacent dot pair - so the
substring dot dot can occur, but only at the junction where the
extension is appended or re-attached after a dot-terminated body, as for
input a dot; the claimed particular input sanitizes to underscore slash
underscore slash evil underscore name underscore dot vsix, free of
adjacent dots and forbidden characters and ending in dot vsix. -/
theorem c7_sanitizeFilename_amended :
    (∀ s : String, ∃ body : List Char,
        ((sanitizeFilename s).data = body ++ ".vsix".data ∨
          (sanitizeFilename s).data = body ++ ".vsixpackage".data) ∧
        hasDotDot body = false ∧
        (∀ c ∈ (sanitizeFilename s).data, isForbiddenFsChar c = false ∧ isJsWs c = false) ∧
        (sanitizeFilename s).data.length ≤ 200) ∧
    sanitizeFilename "../../evil:name?.vsix" = "_/_/evil_name_.vsix" := by
  constructor
  · intro s
    have hA_eq : jsTrim (collapseWs (replaceLeadingDot (stripDotDot (replaceForbidden s.data)))) =
        collapseWs (replaceLeadingDot (stripDotDot (replaceForbidden s.data))) :=
      jsTrim_of_no_ws (fun c hc => collapseWs_no_ws hc)
    have hres : (sanitizeFilename s).data =
        truncate200 (ensureVsixExt
          (collapseWs (replaceLeadingDot (stripDotDot (replaceForbidden s.data))))) := by
      show sanitizeFilenameChars s.data = _
      rw [sanitizeFilenameChars, hA_eq]
    have hA_dd :
        hasDotDot (collapseWs (replaceLeadingDot (stripDotDot (replaceForbidden s.data)))) = false :=
      collapseWs_noDD (replaceLeadingDot_noDD (stripDotDot_noDD _))
    have hA_props :
        ∀ c ∈ collapseWs (replaceLeadingDot (stripDotDot (replaceForbidden s.data))),
          isForbiddenFsChar c = false ∧ isJsWs c = false := by
      intro c hc
      refine ⟨?_, collapseWs_no_ws hc⟩
      rcases collapseWs_mem hc with h1 | h1
      · rw [h1]; decide
      · rcases replaceLeadingDot_mem h1 with h2 | h2
        · rw [h2]; decide
        · rcases stripDotDot_mem h2 with h3 | h3
          · rw [h3]; decide
          · exact replaceForbidden_ok h3
    obtain ⟨body, hor, hbdd, _, hprops, hlen⟩ := sanitizeTail_decomp _ hA_props hA_dd
    refine ⟨body, ?_, hbdd, ?_, ?_⟩
    · rw [hres]; exact hor
    · rw [hres]; exact hprops
    · rw [hres]; exact hlen
  · decide

/-- C3 witness: the amended completeness predicate instantiated at a
concrete descriptor with the three consulted fields non-empty. -/
theorem c3_hasValidData_iff_witness :
    hasValidData ⟨"1.0.0", "p", "p.e", "e"⟩ = true :=
  (c3_hasValidData_iff ⟨"1.0.0", "p", "p.e", "e"⟩).mpr ⟨by decide, by decide, by decide⟩

/-- C7 witness: the amended sanitizer guarantee instantiated at a
concrete hostile filename. -/
theorem c7_sanitizeFilename_amended_witness :
    (sanitizeFilename "evil<name>.txt").data.length ≤ 200 := by
  obtain ⟨body, hor, hbdd, hprops, hlen⟩ := c7_sanitizeFilename_amended.1 "evil<name>.txt"
  exact hlen
